import Mathlib

/-!
Verification of the AUTestAutomation test-automation framework.

This file gives a shallow embedding, in Lean 4, of the parts of the
repository that the verified properties talk about:

* `core/cache/data_cache.py` — the thread-safe singleton data cache
  (`DataCache.get_instance / set / get / has / clear / size /
  reset_instance`);
* `config/settings.py` — `Settings.validate`;
* `base/api/services/base_service.py` — `BaseService._build_url`,
  `BaseService._make_request_with_retry`, `BaseService.extract_and_cache`
  and `BaseService._extract_by_path`;
* `generate_report.py` — the command-line entry point `main`;
* `utils/data_helper.py` — `DataHelper.flatten_dict` and
  `DataHelper.unflatten_dict`.

Python dictionaries are modelled as association lists with Python's
insertion-order semantics (updating an existing key keeps its position,
a new key is appended).  Python strings are modelled either as Lean
`String`s or, where character-level reasoning is needed, as `List Char`.
Code that can raise is modelled with `Option`/`Except`.
-/

set_option autoImplicit false

namespace AUTest

/-! ## Python dict model (association lists, insertion ordered) -/

/-- Lookup in a Python dict: `d[k]` / `d.get(k)`.  Returns the value of
the first (and, for a real dict, only) entry whose key is `k`. -/
def dictGet {α β : Type} [DecidableEq α] : List (α × β) → α → Option β
  | [], _ => none
  | (k, v) :: rest, key => if k = key then some v else dictGet rest key

/-- Assignment in a Python dict: `d[k] = v`.  An existing key keeps its
position and gets the new value; a fresh key is appended at the end. -/
def dictSet {α β : Type} [DecidableEq α] : List (α × β) → α → β → List (α × β)
  | [], key, val => [(key, val)]
  | (k, v) :: rest, key, val =>
      if k = key then (k, val) :: rest else (k, v) :: dictSet rest key val

/-- `dict(items)`: build a dict by assigning the pairs left to right. -/
def pyDictOf {α β : Type} [DecidableEq α] (items : List (α × β)) : List (α × β) :=
  items.foldl (fun d kv => dictSet d kv.1 kv.2) []

theorem dictGet_dictSet_self {α β : Type} [DecidableEq α]
    (d : List (α × β)) (k : α) (v : β) : dictGet (dictSet d k v) k = some v := by
  induction d with
  | nil => simp [dictGet, dictSet]
  | cons hd tl ih =>
      obtain ⟨k', v'⟩ := hd
      by_cases h : k' = k
      · simp [dictGet, dictSet, h]
      · simp [dictGet, dictSet, h, ih]

theorem dictSet_dictSet_same {α β : Type} [DecidableEq α]
    (d : List (α × β)) (k : α) (v w : β) :
    dictSet (dictSet d k v) k w = dictSet d k w := by
  induction d with
  | nil => simp [dictSet]
  | cons hd tl ih =>
      obtain ⟨k', v'⟩ := hd
      by_cases h : k' = k
      · simp [dictSet, h]
      · simp [dictSet, h, ih]

theorem dictGet_none_append {α β : Type} [DecidableEq α]
    (d : List (α × β)) (k : α) (v : β) (h : dictGet d k = none) :
    dictSet d k v = d ++ [(k, v)] := by
  induction d with
  | nil => simp [dictSet]
  | cons hd tl ih =>
      obtain ⟨k', v'⟩ := hd
      by_cases hk : k' = k
      · simp [dictGet, hk] at h
      · simp [dictGet, hk] at h
        simp [dictSet, hk, ih h]

theorem dictGet_append {α β : Type} [DecidableEq α]
    (d e : List (α × β)) (k : α) :
    dictGet (d ++ e) k = (dictGet d k).orElse (fun _ => dictGet e k) := by
  induction d with
  | nil => simp [dictGet]
  | cons hd tl ih =>
      obtain ⟨k', v'⟩ := hd
      by_cases hk : k' = k
      · simp [dictGet, hk]
      · simp [dictGet, hk, ih]

theorem dictGet_eq_none_of_not_mem {α β : Type} [DecidableEq α]
    (d : List (α × β)) (k : α) (h : k ∉ d.map Prod.fst) : dictGet d k = none := by
  induction d with
  | nil => simp [dictGet]
  | cons hd tl ih =>
      obtain ⟨k', v'⟩ := hd
      simp only [List.map_cons, List.mem_cons, not_or] at h
      have hk : k' ≠ k := fun hh => h.1 hh.symm
      simp [dictGet, hk, ih h.2]

/-! ## JSON / Python values

`JVal` models the Python values that appear as parsed JSON bodies and
as cached data: `null` is Python `None`. -/

inductive JVal : Type where
  | null : JVal
  | boolean : Bool → JVal
  | num : Int → JVal
  | str : String → JVal
  | arr : List JVal → JVal
  | obj : List (String × JVal) → JVal

/-! ## `core/cache/data_cache.py` — the data content of `DataCache`

Every public data operation of `DataCache` takes the internal lock and
performs one plain dict operation on `self._data`; the lock makes each
operation atomic, so the sequential functions below are the per-operation
semantics. -/

/-- The `_data` dict of a `DataCache` instance. -/
abbrev CacheData := List (String × JVal)

/-- `DataCache.set(key, value)`. -/
def cacheSet (c : CacheData) (k : String) (v : JVal) : CacheData := dictSet c k v

/-- `DataCache.get(key, default=None)`. -/
def cacheGet (c : CacheData) (k : String) (dflt : JVal) : JVal :=
  (dictGet c k).getD dflt

/-- `DataCache.has(key)`: `key in self._data`. -/
def cacheHas (c : CacheData) (k : String) : Bool := (dictGet c k).isSome

/-- `DataCache.clear()`. -/
def cacheClear (_ : CacheData) : CacheData := []

/-- `DataCache.size()`. -/
def cacheSize (c : CacheData) : Nat := c.length

/-! ## `DataCache.get_instance` / `reset_instance` — singleton identity

Object identities are modelled by allocation numbers: `nextId` is the
next fresh identity, `inst` is the class attribute `_instance` (`none`
when no singleton exists).  `get_instance`'s double-checked locking makes
the check-and-create section atomic, so each call is one transition. -/

structure SingletonState : Type where
  nextId : Nat
  inst : Option Nat
deriving DecidableEq, Repr

/-- The state before any `get_instance` call. -/
def initSingleton : SingletonState := { nextId := 0, inst := none }

/-- One call to `DataCache.get_instance()`: returns the identity of the
instance, creating it first when `_instance` is `None`. -/
def getInstance (s : SingletonState) : SingletonState × Nat :=
  match s.inst with
  | some i => (s, i)
  | none => ({ nextId := s.nextId + 1, inst := some s.nextId }, s.nextId)

/-- One call to `DataCache.reset_instance()`: drops the instance. -/
def resetInstance (s : SingletonState) : SingletonState :=
  { s with inst := none }

/-- `n` further `get_instance` calls after a first one; the result is the
identity returned by the last call. -/
def getInstanceIter (s : SingletonState) : Nat → SingletonState × Nat
  | 0 => getInstance s
  | n + 1 => getInstanceIter (getInstance s).1 n

/-- Allocation invariant: the current instance was allocated earlier than
any fresh identity. -/
def SingletonInv (s : SingletonState) : Prop :=
  ∀ i, s.inst = some i → i < s.nextId

theorem getInstance_inst (s : SingletonState) :
    (getInstance s).1.inst = some (getInstance s).2 := by
  cases h : s.inst <;> simp [getInstance, h]

theorem getInstance_stable (s : SingletonState) (i : Nat) (h : s.inst = some i) :
    getInstance s = (s, i) := by
  simp [getInstance, h]

/-- C5: within one process every `DataCache.get_instance()` call returns the
same instance — any number of further calls after a first one keep returning
the first call's instance — and after `reset_instance()` the next
`get_instance()` returns a fresh instance, distinct from the previous one;
the allocation invariant needed for freshness holds initially and is
preserved by both operations. -/
theorem dataCache_singleton_identity :
    (∀ (s : SingletonState) (n : Nat), (getInstanceIter s n).2 = (getInstance s).2)
    ∧ (∀ (s : SingletonState) (i : Nat), SingletonInv s → s.inst = some i →
        (getInstance (resetInstance s)).2 ≠ i)
    ∧ SingletonInv initSingleton
    ∧ (∀ s : SingletonState, SingletonInv s → SingletonInv (getInstance s).1)
    ∧ (∀ s : SingletonState, SingletonInv s → SingletonInv (resetInstance s)) := by
  refine ⟨?_, ?_, ?_, ?_, ?_⟩
  · intro s n
    induction n generalizing s with
    | zero => rfl
    | succ n ih =>
        show (getInstanceIter (getInstance s).1 n).2 = (getInstance s).2
        rw [ih]
        exact congrArg Prod.snd
          (getInstance_stable (getInstance s).1 (getInstance s).2 (getInstance_inst s))
  · intro s i hinv hsome
    have hlt : i < s.nextId := hinv i hsome
    simp only [resetInstance, getInstance]
    omega
  · intro i h
    simp [initSingleton] at h
  · intro s hinv
    cases h : s.inst with
    | some j =>
        rw [getInstance_stable s j h]
        exact hinv
    | none =>
        intro i hi
        simp [getInstance, h] at hi ⊢
        omega
  · intro s _ i hi
    simp [resetInstance] at hi

/-- C5 witness: at the concrete state with instance `0` allocated and next
identity `1`, a second call returns the same instance, and after a reset the
next call returns a different one. -/
theorem dataCache_singleton_identity_witness :
    (getInstanceIter ⟨1, some 0⟩ 3).2 = (getInstance ⟨1, some 0⟩).2
    ∧ (getInstance (resetInstance ⟨1, some 0⟩)).2 ≠ 0 := by
  refine ⟨dataCache_singleton_identity.1 ⟨1, some 0⟩ 3, ?_⟩
  exact dataCache_singleton_identity.2.1 ⟨1, some 0⟩ 0
    (by intro i h; have h2 := Option.some.inj h; subst h2; decide) rfl

/-- C6: the cache round-trips: `set` then `get` returns exactly the value
stored; `get` on an absent key returns the supplied default (`None` being
the default default); after `clear()` no previously set key is present and
`size()` is `0`. -/
theorem dataCache_roundtrip :
    (∀ (c : CacheData) (k : String) (v dflt : JVal),
        cacheGet (cacheSet c k v) k dflt = v)
    ∧ (∀ (c : CacheData) (k : String) (dflt : JVal),
        cacheHas c k = false → cacheGet c k dflt = dflt)
    ∧ (∀ (c : CacheData) (k : String), cacheHas (cacheClear c) k = false)
    ∧ (∀ c : CacheData, cacheSize (cacheClear c) = 0) := by
  refine ⟨?_, ?_, ?_, ?_⟩
  · intro c k v dflt
    simp [cacheGet, cacheSet, dictGet_dictSet_self]
  · intro c k dflt h
    cases hd : dictGet c k with
    | none => simp [cacheGet, hd]
    | some v => simp [cacheHas, hd] at h
  · intro c k
    simp [cacheHas, cacheClear, dictGet]
  · intro c
    rfl

/-- C6 witness: storing the number `5` under `"k"` and reading it back with
default `null` returns `5`; reading the absent key `"x"` of the empty cache
returns the supplied default. -/
theorem dataCache_roundtrip_witness :
    cacheGet (cacheSet [] "k" (JVal.num 5)) "k" JVal.null = JVal.num 5
    ∧ cacheHas [] "x" = false
    ∧ cacheGet [] "x" (JVal.str "dflt") = JVal.str "dflt" := by
  exact ⟨dataCache_roundtrip.1 [] "k" (JVal.num 5) JVal.null, rfl,
    dataCache_roundtrip.2.1 [] "x" (JVal.str "dflt") rfl⟩

/-! ## `BaseService._make_request_with_retry`

One underlying `session.request` call is modelled by its observable
outcome: a response with a status code, a connection/timeout error, or
any other request exception.  `att i` is the outcome of attempt `i`
(0-based).  `response.raise_for_status()` raises an `HTTPError` exactly
for status codes `400 ≤ st < 600`.  The result records what the Python
function does: return a response, or raise an exception, together with
how many underlying attempts were made and the list of back-off sleep
durations (in seconds, in order). -/

inductive Outcome : Type where
  | resp : Nat → Outcome
  | connErr : Nat → Outcome
  | otherErr : Nat → Outcome
deriving DecidableEq, Repr

inductive Exc : Type where
  | connExc : Nat → Exc
  | httpExc : Nat → Exc
  | otherExc : Nat → Exc
deriving DecidableEq, Repr

inductive Final : Type where
  | returned : Nat → Final
  | raised : Exc → Final
  | fellThrough : Final
deriving DecidableEq, Repr

structure RunOut : Type where
  final : Final
  attempts : Nat
  sleeps : List Nat
deriving DecidableEq, Repr

/-- The `for attempt in range(max_retries + 1)` loop of
`_make_request_with_retry`, one iteration per fuel unit.  `attempt` is the
current loop index, `delay` the current `retry_delay`, `last` the
`last_exception` variable, `sleeps` the back-off sleeps performed so far.
When the fuel (remaining iterations) runs out the loop exits and re-raises
`last_exception` (`fellThrough` models the implicit `return None`, which is
unreachable). -/
def retryLoop (att : Nat → Outcome) (maxR : Nat) :
    Nat → Nat → Nat → Option Exc → List Nat → RunOut
  | 0, attempt, _, last, sleeps =>
      { final := match last with
          | some e => Final.raised e
          | none => Final.fellThrough,
        attempts := attempt, sleeps := sleeps }
  | fuel + 1, attempt, delay, _, sleeps =>
      match att attempt with
      | Outcome.resp st =>
          if 400 ≤ st ∧ st < 600 then
            if 500 ≤ st ∧ attempt < maxR then
              retryLoop att maxR fuel (attempt + 1) (delay * 2)
                (some (Exc.httpExc st)) (sleeps ++ [delay])
            else
              { final := Final.raised (Exc.httpExc st), attempts := attempt + 1,
                sleeps := sleeps }
          else
            { final := Final.returned st, attempts := attempt + 1, sleeps := sleeps }
      | Outcome.connErr e =>
          if attempt < maxR then
            retryLoop att maxR fuel (attempt + 1) (delay * 2)
              (some (Exc.connExc e)) (sleeps ++ [delay])
          else
            retryLoop att maxR fuel (attempt + 1) delay
              (some (Exc.connExc e)) sleeps
      | Outcome.otherErr e =>
          { final := Final.raised (Exc.otherExc e), attempts := attempt + 1,
            sleeps := sleeps }

/-- `BaseService._make_request_with_retry`: the retry budget is
`MAX_RETRIES` if `ENABLE_RETRY` else `0`, and the loop runs `maxR + 1`
iterations starting from `RETRY_DELAY`. -/
def makeRequestWithRetry (enableRetry : Bool) (maxRetries retryDelay : Nat)
    (att : Nat → Outcome) : RunOut :=
  let maxR := if enableRetry then maxRetries else 0
  retryLoop att maxR (maxR + 1) 0 retryDelay none []

/-- The exponential back-off schedule: `[d0, 2*d0, 4*d0, ...]` of length `n`. -/
def geomSleeps (d0 n : Nat) : List Nat :=
  (List.range n).map (fun i => d0 * 2 ^ i)

theorem geomSleeps_succ (d0 n : Nat) :
    geomSleeps d0 (n + 1) = geomSleeps d0 n ++ [d0 * 2 ^ n] := by
  simp [geomSleeps, List.range_succ]

theorem geomSleeps_length (d0 n : Nat) : (geomSleeps d0 n).length = n := by
  simp [geomSleeps]

theorem retryLoop_attempts_le (att : Nat → Outcome) (maxR : Nat) :
    ∀ (fuel attempt delay : Nat) (last : Option Exc) (sleeps : List Nat),
      (retryLoop att maxR fuel attempt delay last sleeps).attempts ≤ attempt + fuel := by
  intro fuel
  induction fuel with
  | zero =>
      intro attempt delay last sleeps
      simp [retryLoop]
  | succ n ih =>
      intro attempt delay last sleeps
      cases hatt : att attempt with
      | resp st =>
          by_cases h1 : 400 ≤ st ∧ st < 600
          · by_cases h2 : 500 ≤ st ∧ attempt < maxR
            · have hle := ih (attempt + 1) (delay * 2) (some (Exc.httpExc st))
                (sleeps ++ [delay])
              simp only [retryLoop, hatt, if_pos h1, if_pos h2]
              omega
            · simp [retryLoop, hatt, h1, h2]
          · simp [retryLoop, hatt, h1]
      | connErr e =>
          by_cases h : attempt < maxR
          · have hle := ih (attempt + 1) (delay * 2) (some (Exc.connExc e))
              (sleeps ++ [delay])
            simp only [retryLoop, hatt, if_pos h]
            omega
          · have hle := ih (attempt + 1) delay (some (Exc.connExc e)) sleeps
            simp only [retryLoop, hatt, if_neg h]
            omega
      | otherErr e =>
          simp [retryLoop, hatt]

theorem retryLoop_sleeps_geom (att : Nat → Outcome) (maxR d0 : Nat) :
    ∀ (fuel attempt : Nat) (last : Option Exc) (n : Nat),
      ∃ m, (retryLoop att maxR fuel attempt (d0 * 2 ^ n) last
        (geomSleeps d0 n)).sleeps = geomSleeps d0 m := by
  intro fuel
  induction fuel with
  | zero =>
      intro attempt last n
      exact ⟨n, by simp [retryLoop]⟩
  | succ f ih =>
      intro attempt last n
      have hstep : d0 * 2 ^ n * 2 = d0 * 2 ^ (n + 1) := by ring
      cases hatt : att attempt with
      | resp st =>
          by_cases h1 : 400 ≤ st ∧ st < 600
          · by_cases h2 : 500 ≤ st ∧ attempt < maxR
            · simp only [retryLoop, hatt, if_pos h1, if_pos h2, hstep,
                ← geomSleeps_succ]
              exact ih (attempt + 1) (some (Exc.httpExc st)) (n + 1)
            · exact ⟨n, by simp [retryLoop, hatt, h1, h2]⟩
          · exact ⟨n, by simp [retryLoop, hatt, h1]⟩
      | connErr e =>
          by_cases h : attempt < maxR
          · simp only [retryLoop, hatt, if_pos h, hstep, ← geomSleeps_succ]
            exact ih (attempt + 1) (some (Exc.connExc e)) (n + 1)
          · simp only [retryLoop, hatt, if_neg h]
            exact ih (attempt + 1) (some (Exc.connExc e)) n
      | otherErr e =>
          exact ⟨n, by simp [retryLoop, hatt]⟩

theorem retryLoop_allConn (att : Nat → Outcome) (maxR : Nat) (f : Nat → Nat)
    (hconn : ∀ i, i ≤ maxR → att i = Outcome.connErr (f i)) :
    ∀ (fuel attempt delay : Nat) (last : Option Exc) (sleeps : List Nat),
      attempt + fuel = maxR + 1 → 0 < fuel →
      (retryLoop att maxR fuel attempt delay last sleeps).final
          = Final.raised (Exc.connExc (f maxR))
      ∧ (retryLoop att maxR fuel attempt delay last sleeps).attempts = maxR + 1 := by
  intro fuel
  induction fuel with
  | zero =>
      intro attempt delay last sleeps _ hpos
      omega
  | succ n ih =>
      intro attempt delay last sleeps htot _
      have hatt : att attempt = Outcome.connErr (f attempt) :=
        hconn attempt (by omega)
      by_cases h : attempt < maxR
      · have hn : 0 < n := by omega
        simp only [retryLoop, hatt, if_pos h]
        exact ih (attempt + 1) (delay * 2) (some (Exc.connExc (f attempt)))
          (sleeps ++ [delay]) (by omega) hn
      · have ha : attempt = maxR := by omega
        have hn : n = 0 := by omega
        subst ha hn
        simp [retryLoop, hatt]

/-- The concrete attempt behaviour of the spec's retry scenario: two
connection failures, then a success. -/
def scenarioConnConnOk : Nat → Outcome := fun i =>
  if i = 0 then Outcome.connErr 0
  else if i = 1 then Outcome.connErr 1
  else Outcome.resp 200

/-- C1: the request engine makes at most `1 + MAX_RETRIES` attempts when
retry is enabled and exactly one attempt when it is disabled; every
back-off sleep sequence it performs is the exponential schedule starting
at `RETRY_DELAY` and doubling each time; a connection/timeout error with
budget left sleeps the current delay, doubles it and retries; when the
budget is exhausted by connection/timeout errors the last such error is
re-raised after exactly `maxR + 1` attempts; and with retry enabled,
`max_retries = 2` and two connection failures followed by a success, the
call returns the successful response after exactly 3 attempts. -/
theorem baseService_retry_policy :
    (∀ (er : Bool) (mr d0 : Nat) (att : Nat → Outcome),
        (makeRequestWithRetry er mr d0 att).attempts
          ≤ (if er then mr else 0) + 1)
    ∧ (∀ (mr d0 : Nat) (att : Nat → Outcome),
        (makeRequestWithRetry false mr d0 att).attempts = 1)
    ∧ (∀ (er : Bool) (mr d0 : Nat) (att : Nat → Outcome),
        ∃ m, (makeRequestWithRetry er mr d0 att).sleeps = geomSleeps d0 m)
    ∧ (∀ (att : Nat → Outcome) (maxR fuel attempt delay : Nat)
          (last : Option Exc) (sleeps : List Nat) (e : Nat),
        att attempt = Outcome.connErr e → attempt < maxR →
        retryLoop att maxR (fuel + 1) attempt delay last sleeps
          = retryLoop att maxR fuel (attempt + 1) (delay * 2)
              (some (Exc.connExc e)) (sleeps ++ [delay]))
    ∧ (∀ (er : Bool) (mr d0 : Nat) (att : Nat → Outcome) (f : Nat → Nat),
        (∀ i, i ≤ (if er then mr else 0) → att i = Outcome.connErr (f i)) →
        (makeRequestWithRetry er mr d0 att).final
            = Final.raised (Exc.connExc (f (if er then mr else 0)))
          ∧ (makeRequestWithRetry er mr d0 att).attempts
              = (if er then mr else 0) + 1)
    ∧ makeRequestWithRetry true 2 1 scenarioConnConnOk
        = { final := Final.returned 200, attempts := 3, sleeps := [1, 2] } := by
  refine ⟨?_, ?_, ?_, ?_, ?_, ?_⟩
  · intro er mr d0 att
    have h := retryLoop_attempts_le att (if er then mr else 0)
      ((if er then mr else 0) + 1) 0 d0 none []
    simpa [makeRequestWithRetry] using h
  · intro mr d0 att
    show (retryLoop att 0 1 0 d0 none []).attempts = 1
    cases hatt : att 0 with
    | resp st =>
        by_cases h1 : 400 ≤ st ∧ st < 600
        · simp [retryLoop, hatt, h1]
        · simp [retryLoop, hatt, h1]
    | connErr e => simp [retryLoop, hatt]
    | otherErr e => simp [retryLoop, hatt]
  · intro er mr d0 att
    have h := retryLoop_sleeps_geom att (if er then mr else 0) d0
      ((if er then mr else 0) + 1) 0 none 0
    simpa [makeRequestWithRetry, geomSleeps] using h
  · intro att maxR fuel attempt delay last sleeps e hatt hlt
    simp [retryLoop, hatt, hlt]
  · intro er mr d0 att f hconn
    exact retryLoop_allConn att (if er then mr else 0) f hconn
      ((if er then mr else 0) + 1) 0 d0 none [] (by omega) (by omega)
  · decide

/-- C1 witness: conjuncts with hypotheses applied at concrete inputs — the
conn-retry step at attempt 0 with budget 2, and full conn exhaustion with
retry enabled and `max_retries = 1`. -/
theorem baseService_retry_policy_witness :
    retryLoop (fun _ => Outcome.connErr 7) 2 3 0 1 none []
        = retryLoop (fun _ => Outcome.connErr 7) 2 2 1 2 (some (Exc.connExc 7)) [1]
    ∧ (makeRequestWithRetry true 1 1 (fun _ => Outcome.connErr 7)).final
        = Final.raised (Exc.connExc 7)
    ∧ (makeRequestWithRetry true 1 1 (fun _ => Outcome.connErr 7)).attempts = 2 := by
  refine ⟨?_, ?_⟩
  · exact baseService_retry_policy.2.2.2.1 (fun _ => Outcome.connErr 7)
      2 2 0 1 none [] 7 rfl (by omega)
  · have h := baseService_retry_policy.2.2.2.2.1 true 1 1
      (fun _ => Outcome.connErr 7) (fun _ => 7) (fun i _ => rfl)
    simpa using h

/-- C2: in the request engine a 4xx response is raised on the very attempt
that produced it, with no retry; an HTTP 404 on the first attempt gives
exactly 1 attempt and a raised `HTTPError`; a 5xx response with budget
left sleeps the current delay, doubles it and retries, while a 5xx with
the budget exhausted is raised; and any other request exception is raised
immediately on its attempt without retry. -/
theorem baseService_no_retry_on_4xx :
    (∀ (att : Nat → Outcome) (maxR fuel attempt delay : Nat)
        (last : Option Exc) (sleeps : List Nat) (st : Nat),
      att attempt = Outcome.resp st → 400 ≤ st → st < 500 →
      retryLoop att maxR (fuel + 1) attempt delay last sleeps
        = { final := Final.raised (Exc.httpExc st), attempts := attempt + 1,
            sleeps := sleeps })
    ∧ (∀ (er : Bool) (mr d0 : Nat) (att : Nat → Outcome),
        att 0 = Outcome.resp 404 →
        makeRequestWithRetry er mr d0 att
          = { final := Final.raised (Exc.httpExc 404), attempts := 1,
              sleeps := [] })
    ∧ (∀ (att : Nat → Outcome) (maxR fuel attempt delay : Nat)
          (last : Option Exc) (sleeps : List Nat) (st : Nat),
        att attempt = Outcome.resp st → 500 ≤ st → st < 600 → attempt < maxR →
        retryLoop att maxR (fuel + 1) attempt delay last sleeps
          = retryLoop att maxR fuel (attempt + 1) (delay * 2)
              (some (Exc.httpExc st)) (sleeps ++ [delay]))
    ∧ (∀ (att : Nat → Outcome) (maxR fuel attempt delay : Nat)
          (last : Option Exc) (sleeps : List Nat) (st : Nat),
        att attempt = Outcome.resp st → 500 ≤ st → st < 600 → ¬ attempt < maxR →
        retryLoop att maxR (fuel + 1) attempt delay last sleeps
          = { final := Final.raised (Exc.httpExc st), attempts := attempt + 1,
              sleeps := sleeps })
    ∧ (∀ (att : Nat → Outcome) (maxR fuel attempt delay : Nat)
          (last : Option Exc) (sleeps : List Nat) (e : Nat),
        att attempt = Outcome.otherErr e →
        retryLoop att maxR (fuel + 1) attempt delay last sleeps
          = { final := Final.raised (Exc.otherExc e), attempts := attempt + 1,
              sleeps := sleeps }) := by
  refine ⟨?_, ?_, ?_, ?_, ?_⟩
  · intro att maxR fuel attempt delay last sleeps st hatt h4 h5
    have h1 : 400 ≤ st ∧ st < 600 := ⟨h4, by omega⟩
    have h2 : ¬ (500 ≤ st ∧ attempt < maxR) := by omega
    simp [retryLoop, hatt, h1, h2]
  · intro er mr d0 att hatt
    show retryLoop att (if er then mr else 0) ((if er then mr else 0) + 1)
        0 d0 none [] = _
    have h1 : 400 ≤ 404 ∧ 404 < 600 := by omega
    have h2 : ¬ (500 ≤ 404 ∧ 0 < (if er then mr else 0)) := by omega
    simp [retryLoop, hatt, h1, h2]
  · intro att maxR fuel attempt delay last sleeps st hatt h5 h6 hlt
    have h1 : 400 ≤ st ∧ st < 600 := by omega
    have h2 : 500 ≤ st ∧ attempt < maxR := ⟨h5, hlt⟩
    simp [retryLoop, hatt, h1, h2]
  · intro att maxR fuel attempt delay last sleeps st hatt h5 h6 hlt
    have h1 : 400 ≤ st ∧ st < 600 := by omega
    have h2 : ¬ (500 ≤ st ∧ attempt < maxR) := by simp [hlt]
    simp [retryLoop, hatt, h1, h2]
  · intro att maxR fuel attempt delay last sleeps e hatt
    simp [retryLoop, hatt]

/-- C2 witness: an HTTP 404 on the first attempt, with retry enabled and
budget 3, makes exactly one attempt and raises; a 500 then a success makes
two attempts; an other-exception run raises on attempt 1. -/
theorem baseService_no_retry_on_4xx_witness :
    makeRequestWithRetry true 3 1 (fun _ => Outcome.resp 404)
        = { final := Final.raised (Exc.httpExc 404), attempts := 1, sleeps := [] }
    ∧ retryLoop (fun i => if i = 0 then Outcome.resp 500 else Outcome.resp 200)
          2 3 0 1 none []
        = retryLoop (fun i => if i = 0 then Outcome.resp 500 else Outcome.resp 200)
          2 2 1 2 (some (Exc.httpExc 500)) [1]
    ∧ retryLoop (fun _ => Outcome.otherErr 9) 2 3 0 1 none []
        = { final := Final.raised (Exc.otherExc 9), attempts := 1, sleeps := [] } := by
  refine ⟨?_, ?_, ?_⟩
  · exact baseService_no_retry_on_4xx.2.1 true 3 1 (fun _ => Outcome.resp 404) rfl
  · exact baseService_no_retry_on_4xx.2.2.1
      (fun i => if i = 0 then Outcome.resp 500 else Outcome.resp 200)
      2 2 0 1 none [] 500 rfl (by omega) (by omega) (by omega)
  · exact baseService_no_retry_on_4xx.2.2.2.2
      (fun _ => Outcome.otherErr 9) 2 2 0 1 none [] 9 rfl

/-! ## Substring search on character lists

`breakOn sep s` finds the leftmost occurrence of `sep` in `s` and splits
around it (Python's `s.find(sep)` / the first step of `s.split(sep)`);
`none` means `sep` does not occur in `s`. -/

def breakOn (sep : List Char) : List Char → Option (List Char × List Char)
  | [] => if sep = [] then some ([], []) else none
  | c :: rest =>
      if sep.isPrefixOf (c :: rest) then some ([], (c :: rest).drop sep.length)
      else (breakOn sep rest).map (fun pr => (c :: pr.1, pr.2))

/-- Python's `needle in haystack` on strings. -/
def strContainsSub (needle hay : String) : Bool :=
  (breakOn needle.toList hay.toList).isSome

/-- Python `s.split(sep)` for a non-empty separator, with explicit fuel:
split off the part before the leftmost occurrence of `sep` and recurse on
the remainder.  Each recursion step consumes at least one character of
`s`, so fuel `s.length + 1` (as used by `pySplit`) never runs out. -/
def pySplitFuel : Nat → List Char → List Char → List (List Char)
  | 0, _, s => [s]
  | fuel + 1, sep, s =>
      match breakOn sep s with
      | none => [s]
      | some (a, b) => a :: pySplitFuel fuel sep b

/-- Python `s.split(sep)` for a non-empty separator. -/
def pySplit (sep s : List Char) : List (List Char) :=
  pySplitFuel (s.length + 1) sep s

/-- Python `path.split('.')` on strings. -/
def splitDot (path : String) : List String :=
  (pySplit ['.'] path.toList).map (fun cs => ⟨cs⟩)

/-! ## `config/settings.py` — `Settings.validate`

The fields below are the class attributes `Settings.validate` reads.
Integer-typed configuration values are Python `int`s, modelled as `Int`. -/

structure SettingsModel : Type where
  BROWSER_TYPE : String
  BROWSER_TIMEOUT : Int
  API_TIMEOUT : Int
  LOG_LEVEL : String
  PARALLEL_WORKERS : String
  MAX_RETRIES : Int
  RETRY_DELAY : Int
  SCREENSHOT_QUALITY : Int
  VIEWPORT_WIDTH : Int
  VIEWPORT_HEIGHT : Int
deriving DecidableEq, Repr

/-- Models Python `int(s)` on optional-sign decimal literals with optional
surrounding whitespace (`None` models the `ValueError`); underscore digit
separators are not modelled. -/
def pyParseInt (s : String) : Option Int :=
  let cs :=
    ((s.toList.dropWhile Char.isWhitespace).reverse.dropWhile Char.isWhitespace).reverse
  let digitsVal : List Char → Option Nat := fun ds =>
    if ds ≠ [] ∧ ds.all Char.isDigit then
      some (ds.foldl (fun a c => 10 * a + (c.toNat - 48)) 0)
    else none
  match cs with
  | '+' :: rest => (digitsVal rest).map (fun n => (n : Int))
  | '-' :: rest => (digitsVal rest).map (fun n => -(n : Int))
  | _ => (digitsVal cs).map (fun n => (n : Int))

/-- `Settings.validate()`.  The Python method appends to `errors` under a
sequence of conditions; each conditional `append` is written here as the
concatenation of a conditional singleton, in the source's order.  It
returns `(len(errors) == 0, errors)` and never raises (the model is a
total function). -/
def validateSettings (s : SettingsModel) : Bool × List String :=
  let errors : List String :=
    (if s.BROWSER_TYPE ∈ (["chromium", "firefox", "webkit"] : List String) then []
      else ["Invalid BROWSER_TYPE: " ++ s.BROWSER_TYPE
        ++ ". Must be one of: chromium, firefox, webkit"])
    ++ (if s.BROWSER_TIMEOUT ≤ 0 then
          ["BROWSER_TIMEOUT must be positive, got: " ++ toString s.BROWSER_TIMEOUT]
        else [])
    ++ (if s.API_TIMEOUT ≤ 0 then
          ["API_TIMEOUT must be positive, got: " ++ toString s.API_TIMEOUT]
        else [])
    ++ (if s.LOG_LEVEL ∈ (["DEBUG", "INFO", "WARNING", "ERROR", "CRITICAL"] : List String)
        then []
        else ["Invalid LOG_LEVEL: " ++ s.LOG_LEVEL
          ++ ". Must be one of: DEBUG, INFO, WARNING, ERROR, CRITICAL"])
    ++ (if s.PARALLEL_WORKERS = "auto" then []
        else match pyParseInt s.PARALLEL_WORKERS with
          | some w =>
              if w ≤ 0 then
                ["PARALLEL_WORKERS must be \x27auto\x27 or a positive integer, got: "
                  ++ s.PARALLEL_WORKERS]
              else []
          | none =>
              ["PARALLEL_WORKERS must be \x27auto\x27 or a valid integer, got: "
                ++ s.PARALLEL_WORKERS])
    ++ (if s.MAX_RETRIES < 0 then
          ["MAX_RETRIES must be non-negative, got: " ++ toString s.MAX_RETRIES]
        else [])
    ++ (if s.RETRY_DELAY < 0 then
          ["RETRY_DELAY must be non-negative, got: " ++ toString s.RETRY_DELAY]
        else [])
    ++ (if 1 ≤ s.SCREENSHOT_QUALITY ∧ s.SCREENSHOT_QUALITY ≤ 100 then []
        else ["SCREENSHOT_QUALITY must be between 1 and 100, got: "
          ++ toString s.SCREENSHOT_QUALITY])
    ++ (if s.VIEWPORT_WIDTH ≤ 0 ∨ s.VIEWPORT_HEIGHT ≤ 0 then
          ["Viewport dimensions must be positive, got: " ++ toString s.VIEWPORT_WIDTH
            ++ "x" ++ toString s.VIEWPORT_HEIGHT]
        else [])
  (errors.isEmpty, errors)

/-- The documented defaults of `config/settings.py` for the fields that
`validate` reads (the values used when no environment variable is set). -/
def defaultSettings : SettingsModel :=
  { BROWSER_TYPE := "chromium", BROWSER_TIMEOUT := 30000, API_TIMEOUT := 30,
    LOG_LEVEL := "INFO", PARALLEL_WORKERS := "auto", MAX_RETRIES := 3,
    RETRY_DELAY := 1, SCREENSHOT_QUALITY := 80, VIEWPORT_WIDTH := 1920,
    VIEWPORT_HEIGHT := 1080 }

/-- C7: `Settings.validate()` returns `(is_valid, errors)` and is a total
function (never raises); whenever `BROWSER_TYPE` is outside
`{chromium, firefox, webkit}` the error list is non-empty and contains the
message naming `BROWSER_TYPE`; with `BROWSER_TYPE = "invalid"` and all
other fields at their defaults the error list is exactly that one message,
which contains the substring `"BROWSER_TYPE"`, and `is_valid` is `false`;
and at the full defaults validation returns `(true, [])`. -/
theorem settings_validate_spec :
    (∀ s : SettingsModel,
        s.BROWSER_TYPE ∉ (["chromium", "firefox", "webkit"] : List String) →
        (validateSettings s).2 ≠ []
        ∧ ("Invalid BROWSER_TYPE: " ++ s.BROWSER_TYPE
            ++ ". Must be one of: chromium, firefox, webkit") ∈ (validateSettings s).2)
    ∧ (validateSettings { defaultSettings with BROWSER_TYPE := "invalid" }
        = (false,
            ["Invalid BROWSER_TYPE: invalid. Must be one of: chromium, firefox, webkit"]))
    ∧ strContainsSub "BROWSER_TYPE"
        "Invalid BROWSER_TYPE: invalid. Must be one of: chromium, firefox, webkit" = true
    ∧ validateSettings defaultSettings = (true, []) := by
  refine ⟨?_, by decide, by decide, by decide⟩
  intro s h
  constructor
  · simp [validateSettings, h]
  · simp only [validateSettings, if_neg h]
    simp [List.mem_append]

/-- C7 witness: the universally quantified conjunct applied to the
default configuration with `BROWSER_TYPE := "invalid"`. -/
theorem settings_validate_spec_witness :
    ("invalid" : String) ∉ (["chromium", "firefox", "webkit"] : List String)
    ∧ (validateSettings { defaultSettings with BROWSER_TYPE := "invalid" }).2 ≠ []
    ∧ ("Invalid BROWSER_TYPE: " ++ "invalid"
        ++ ". Must be one of: chromium, firefox, webkit")
        ∈ (validateSettings { defaultSettings with BROWSER_TYPE := "invalid" }).2 := by
  refine ⟨by decide, ?_⟩
  exact settings_validate_spec.1 { defaultSettings with BROWSER_TYPE := "invalid" }
    (by decide)

/-! ## `BaseService._build_url` -/

/-- Python `s.startswith(pre)`. -/
def pyStartsWith (s pre : String) : Bool := pre.toList.isPrefixOf s.toList

/-- Python `s.lstrip('/')`: removes every leading slash. -/
def pyLstripSlash (s : String) : String := ⟨s.toList.dropWhile (fun c => c = '/')⟩

/-- A character allowed in a URL scheme after the leading letter. -/
def isSchemeChar (c : Char) : Bool := c.isAlphanum || c = '+' || c = '-' || c = '.'

/-- Splits `scheme:rest` off a URL when it carries a scheme (a leading
letter followed by scheme characters and a colon), as `urllib.parse` does. -/
def splitScheme (s : String) : Option (String × String) :=
  let cs := s.toList
  let pre := cs.takeWhile isSchemeChar
  match cs.drop pre.length with
  | ':' :: rest =>
      match pre with
      | [] => none
      | c :: _ => if c.isAlpha then some (⟨pre⟩, ⟨rest⟩) else none
  | _ => none

/-- The base path up to and including its last slash (RFC 3986 merge). -/
def upToLastSlash (cs : List Char) : List Char :=
  (cs.reverse.dropWhile (fun c => c ≠ '/')).reverse

/-- Modelled from `urllib.parse.urljoin`, restricted to the shapes
`BaseService._build_url` passes it: an absolute hierarchical base
(`scheme://authority/path`) and a reference without query or fragment.
A reference carrying its own scheme is returned unchanged; an
absolute-path reference replaces the base path; a relative reference is
merged onto the base path, or attached as `/ref` when the base path is
empty (RFC 3986 §5.3).  Dot-segment removal is not modelled. -/
def urljoinModel (base url : String) : String :=
  match splitScheme url with
  | some _ => url
  | none =>
      match splitScheme base with
      | none => url
      | some (sch, rest) =>
          let cs := rest.toList
          if cs.take 2 = ['/', '/'] then
            let after := cs.drop 2
            let auth := after.takeWhile (fun c => c ≠ '/')
            let bpath := after.dropWhile (fun c => c ≠ '/')
            let upath := url.toList
            let merged :=
              if upath = [] then bpath
              else if upath.take 1 = ['/'] then upath
              else if bpath = [] then '/' :: upath
              else upToLastSlash bpath ++ upath
            ⟨sch.toList ++ (':' :: '/' :: '/' :: (auth ++ merged))⟩
          else url

/-- `BaseService._build_url(endpoint)`. -/
def build_url (base_url endpoint : String) : String :=
  if pyStartsWith endpoint "http://" || pyStartsWith endpoint "https://" then endpoint
  else urljoinModel base_url (pyLstripSlash endpoint)

/-- C4: an endpoint beginning with `http://` or `https://` is returned
unchanged; any other endpoint has its leading slashes stripped and is
joined onto the base URL; in particular `/users` against
`https://api.example.com` resolves to `https://api.example.com/users` and
the absolute `https://other.com/api` resolves to itself. -/
theorem baseService_build_url_spec :
    (∀ base endpoint : String,
        (pyStartsWith endpoint "http://" || pyStartsWith endpoint "https://") = true →
        build_url base endpoint = endpoint)
    ∧ (∀ base endpoint : String,
        (pyStartsWith endpoint "http://" || pyStartsWith endpoint "https://") = false →
        build_url base endpoint = urljoinModel base (pyLstripSlash endpoint))
    ∧ build_url "https://api.example.com" "/users" = "https://api.example.com/users"
    ∧ build_url "https://api.example.com" "https://other.com/api"
        = "https://other.com/api" := by
  refine ⟨?_, ?_, by decide, by decide⟩
  · intro base endpoint h
    simp [build_url, h]
  · intro base endpoint h
    simp [build_url, h]

/-- C4 witness: the two conditional conjuncts applied at the spec's
concrete endpoints. -/
theorem baseService_build_url_spec_witness :
    (pyStartsWith "https://other.com/api" "http://"
      || pyStartsWith "https://other.com/api" "https://") = true
    ∧ build_url "https://api.example.com" "https://other.com/api"
        = "https://other.com/api"
    ∧ (pyStartsWith "/users" "http://" || pyStartsWith "/users" "https://") = false
    ∧ build_url "https://api.example.com" "/users"
        = urljoinModel "https://api.example.com" (pyLstripSlash "/users") := by
  refine ⟨by decide, ?_, by decide, ?_⟩
  · exact baseService_build_url_spec.1 "https://api.example.com"
      "https://other.com/api" (by decide)
  · exact baseService_build_url_spec.2.1 "https://api.example.com" "/users" (by decide)

/-! ## `BaseService.extract_and_cache` / `_extract_by_path`

The parsed response body is an `Option JVal`: `none` models a body that
`response.json()` fails to parse.  `JVal.null` is Python `None`, so the
`return None` of a failed extraction and a genuine JSON `null` coincide,
exactly as in Python. -/

/-- Python `is None` on a JSON value. -/
def isNull : JVal → Bool
  | JVal.null => true
  | _ => false

/-- Python list indexing `xs[i]` (negative indices count from the end);
`none` models `IndexError`. -/
def pyListGet (xs : List JVal) (i : Int) : Option JVal :=
  let j := if i < 0 then i + xs.length else i
  if 0 ≤ j ∧ j < xs.length then xs.get? j.toNat else none

/-- The segment-walking loop of `_extract_by_path`: a list value consumes
the segment as an integer index (`int(key)`), a dict value as a key; any
failure (unparsable index, out-of-range index, missing key, scalar value)
returns `None` — i.e. `JVal.null`. -/
def extractSegs : List String → JVal → JVal
  | [], cur => cur
  | k :: rest, cur =>
      match cur with
      | JVal.arr xs =>
          match pyParseInt k with
          | none => JVal.null
          | some i =>
              match pyListGet xs i with
              | none => JVal.null
              | some v => extractSegs rest v
      | JVal.obj fs =>
          match dictGet fs k with
          | none => JVal.null
          | some v => extractSegs rest v
      | _ => JVal.null

/-- `BaseService._extract_by_path(data, path)`: an empty path returns the
data itself, otherwise the dot-split segments are walked. -/
def extract_by_path (data : JVal) (path : String) : JVal :=
  if path = "" then data else extractSegs (splitDot path) data

/-- Specification-side strict path resolution: `some v` when every segment
resolves, `none` when any segment is missing or invalid.  Used to state
which paths `extract_by_path` fails on. -/
def resolveSegs : List String → JVal → Option JVal
  | [], cur => some cur
  | k :: rest, cur =>
      match cur with
      | JVal.arr xs =>
          match pyParseInt k with
          | none => none
          | some i =>
              match pyListGet xs i with
              | none => none
              | some v => resolveSegs rest v
      | JVal.obj fs =>
          match dictGet fs k with
          | none => none
          | some v => resolveSegs rest v
      | _ => none

theorem extractSegs_resolve (segs : List String) :
    ∀ cur : JVal, extractSegs segs cur = (resolveSegs segs cur).getD JVal.null := by
  induction segs with
  | nil => intro cur; rfl
  | cons k rest ih =>
      intro cur
      cases cur with
      | arr xs =>
          cases hi : pyParseInt k with
          | none => simp [extractSegs, resolveSegs, hi]
          | some i =>
              cases hg : pyListGet xs i with
              | none => simp [extractSegs, resolveSegs, hi, hg]
              | some v => simp [extractSegs, resolveSegs, hi, hg, ih v]
      | obj fs =>
          cases hg : dictGet fs k with
          | none => simp [extractSegs, resolveSegs, hg]
          | some v => simp [extractSegs, resolveSegs, hg, ih v]
      | null => simp [extractSegs, resolveSegs]
      | boolean b => simp [extractSegs, resolveSegs]
      | num n => simp [extractSegs, resolveSegs]
      | str s => simp [extractSegs, resolveSegs]

/-- The observable result of a successful `extract_and_cache` call: the
cache contents afterwards, the returned value, and whether the
path-not-found warning was logged. -/
structure ExtractOut : Type where
  cache : CacheData
  value : JVal
  warned : Bool

/-- `BaseService.extract_and_cache(response, cache_key, json_path=None)`.
`Except.error` models the raised `ValueError` for a non-JSON body. -/
def extract_and_cache (cache : CacheData) (parsed : Option JVal)
    (cache_key : String) (json_path : Option String) : Except String ExtractOut :=
  match parsed with
  | none => Except.error "Response is not valid JSON"
  | some body =>
      match json_path with
      | none =>
          Except.ok
            { cache := cacheSet cache cache_key body, value := body, warned := false }
      | some p =>
          let v := extract_by_path body p
          if isNull v then
            Except.ok
              { cache := cacheSet cache cache_key JVal.null, value := v, warned := true }
          else
            Except.ok
              { cache := cacheSet cache cache_key v, value := v, warned := false }

/-- The body used by the spec's extraction example. -/
def demoBody : JVal :=
  JVal.obj [("data", JVal.obj [("user", JVal.obj [("name", JVal.str "Alice")])])]

/-- C3: `extract_and_cache` fails with the invalid-JSON `ValueError` when
the body does not parse; with no `json_path` it caches and returns the
whole parsed body; with a dot-separated path that fully resolves to a
non-`None` value it caches and returns that value; for every non-empty
path with a missing or invalid segment it does not raise but caches `None`,
returns `None` and logs the warning; and on the spec's example body the
path `"data.user.missing"` returns `None` without raising. -/
theorem baseService_extract_and_cache_spec :
    (∀ (cache : CacheData) (k : String) (p : Option String),
        extract_and_cache cache none k p = Except.error "Response is not valid JSON")
    ∧ (∀ (cache : CacheData) (body : JVal) (k : String),
        extract_and_cache cache (some body) k none
          = Except.ok
              { cache := cacheSet cache k body, value := body, warned := false })
    ∧ (∀ (cache : CacheData) (body : JVal) (k p : String) (v : JVal),
        p ≠ "" → resolveSegs (splitDot p) body = some v → isNull v = false →
        extract_and_cache cache (some body) k (some p)
          = Except.ok { cache := cacheSet cache k v, value := v, warned := false })
    ∧ (∀ (cache : CacheData) (body : JVal) (k p : String),
        p ≠ "" → resolveSegs (splitDot p) body = none →
        extract_and_cache cache (some body) k (some p)
          = Except.ok
              { cache := cacheSet cache k JVal.null, value := JVal.null,
                warned := true })
    ∧ extract_and_cache [] (some demoBody) "k" (some "data.user.missing")
        = Except.ok
            { cache := [("k", JVal.null)], value := JVal.null, warned := true } := by
  refine ⟨?_, ?_, ?_, ?_, rfl⟩
  · intro cache k p; rfl
  · intro cache body k; rfl
  · intro cache body k p v hp hres hnull
    have he : extract_by_path body p = v := by
      simp [extract_by_path, hp, extractSegs_resolve, hres]
    simp [extract_and_cache, he, hnull]
  · intro cache body k p hp hres
    have he : extract_by_path body p = JVal.null := by
      simp [extract_by_path, hp, extractSegs_resolve, hres]
    simp [extract_and_cache, he, isNull]

/-- C3 witness: the resolving-path and missing-path conjuncts applied at
concrete bodies and paths. -/
theorem baseService_extract_and_cache_spec_witness :
    extract_and_cache [] (some (JVal.obj [("id", JVal.num 7)])) "k" (some "id")
        = Except.ok
            { cache := [("k", JVal.num 7)], value := JVal.num 7, warned := false }
    ∧ extract_and_cache [] (some (JVal.obj [("id", JVal.num 7)])) "k" (some "nope")
        = Except.ok
            { cache := [("k", JVal.null)], value := JVal.null, warned := true } := by
  constructor
  · exact baseService_extract_and_cache_spec.2.2.1 [] (JVal.obj [("id", JVal.num 7)])
      "k" "id" (JVal.num 7) (by decide) rfl rfl
  · exact baseService_extract_and_cache_spec.2.2.2.1 [] (JVal.obj [("id", JVal.num 7)])
      "k" "nope" (by decide) rfl

/-- C9: a path that resolves to a JSON `null` is handled exactly like a
missing path — `extract_and_cache` caches `None`, returns `None` and logs
the warning — so the two cases are observationally identical. -/
theorem extract_null_indistinguishable :
    ∀ (cache : CacheData) (k : String) (body : JVal) (p q : String),
      p ≠ "" → q ≠ "" →
      resolveSegs (splitDot p) body = some JVal.null →
      resolveSegs (splitDot q) body = none →
      extract_and_cache cache (some body) k (some p)
        = extract_and_cache cache (some body) k (some q)
      ∧ extract_and_cache cache (some body) k (some p)
          = Except.ok
              { cache := cacheSet cache k JVal.null, value := JVal.null,
                warned := true } := by
  intro cache k body p q hp hq hres hmiss
  have hep : extract_by_path body p = JVal.null := by
    simp [extract_by_path, hp, extractSegs_resolve, hres]
  have heq : extract_by_path body q = JVal.null := by
    simp [extract_by_path, hq, extractSegs_resolve, hmiss]
  constructor
  · simp [extract_and_cache, hep, heq]
  · simp [extract_and_cache, hep, isNull]

/-- C9 witness: on the body `{"a": null}`, extracting the null-valued path
`"a"` coincides with extracting the absent path `"zz"`. -/
theorem extract_null_indistinguishable_witness :
    extract_and_cache [] (some (JVal.obj [("a", JVal.null)])) "k" (some "a")
      = extract_and_cache [] (some (JVal.obj [("a", JVal.null)])) "k" (some "zz") := by
  exact (extract_null_indistinguishable [] "k" (JVal.obj [("a", JVal.null)])
    "a" "zz" (by decide) (by decide) rfl rfl).1

/-! ## `generate_report.py` — `main`

`argv` is the full `sys.argv` (program name first).  `allureInstalled`
is the outcome of `check_allure_installed()`; `actionResult` gives the
boolean that the verb's action (`serve`/`generate`/`open_report`/`clean`)
returns when invoked.  The `help` entry of the commands dict is
`print_usage`, which returns `None`; the dispatched result is therefore an
`Option Bool`, and the exit code is `0 if success else 1` under Python
truthiness (`None` and `False` are falsy). -/

/-- Python `s.lower()` (ASCII case mapping). -/
def pyLower (s : String) : String := ⟨s.toList.map Char.toLower⟩

/-- Python truthiness of the dispatched command's return value. -/
def pyTruthy : Option Bool → Bool
  | none => false
  | some b => b

/-- The keys of the `commands` dict in `main`. -/
def knownCommands : List String := ["serve", "generate", "open", "clean", "help"]

/-- The return value of `commands[command]()`. -/
def commandResult (actionResult : String → Bool) (c : String) : Option Bool :=
  if c = "help" then none else some (actionResult c)

/-- `main()` of `generate_report.py`, returning the process exit code. -/
def reportMain (allureInstalled : Bool) (argv : List String)
    (actionResult : String → Bool) : Nat :=
  if !allureInstalled then 1
  else
    match argv with
    | [] => 1
    | [_] => 1
    | _ :: cmdArg :: _ =>
        let command := pyLower cmdArg
        if command ∈ knownCommands then
          if pyTruthy (commandResult actionResult command) then 0 else 1
        else 1

/-- C8 counterexample: with the report tool installed and every action
succeeding, the claim predicts exit code 0 for the `help` verb, but the
program exits 1 — `print_usage` returns `None`, which the exit logic
`sys.exit(0 if success else 1)` treats as failure. -/
theorem reportMain_help_exit_counterexample :
    reportMain true ["generate_report.py", "help"] (fun _ => true) = 1
    ∧ reportMain true ["generate_report.py", "help"] (fun _ => true) ≠ 0 := by
  exact ⟨rfl, by decide⟩

/-- C8 (amended): with the report tool available, each of `serve`,
`generate`, `open` and `clean` exits 0 when its action succeeds and 1 when
it fails; `help` prints the usage text but always exits 1 (its handler
returns no success value); an unknown verb or a missing verb argument
prints usage and exits 1; and a missing report tool exits 1. -/
theorem reportMain_exit_codes :
    (∀ (act : String → Bool) (prog : String) (rest : List String) (v : String),
        v ∈ (["serve", "generate", "open", "clean"] : List String) →
        reportMain true (prog :: v :: rest) act = if act v then 0 else 1)
    ∧ (∀ (act : String → Bool) (prog : String) (rest : List String),
        reportMain true (prog :: "help" :: rest) act = 1)
    ∧ (∀ (act : String → Bool) (prog : String) (rest : List String) (v : String),
        pyLower v ∉ knownCommands →
        reportMain true (prog :: v :: rest) act = 1)
    ∧ (∀ (act : String → Bool) (prog : String), reportMain true [prog] act = 1)
    ∧ (∀ (act : String → Bool) (argv : List String), reportMain false argv act = 1) := by
  refine ⟨?_, ?_, ?_, ?_, ?_⟩
  · intro act prog rest v hv
    simp only [List.mem_cons, List.mem_singleton] at hv
    rcases hv with rfl | rfl | rfl | (rfl | h)
    · rfl
    · rfl
    · rfl
    · rfl
    · simp at h
  · intro act prog rest
    rfl
  · intro act prog rest v hv
    simp [reportMain, hv]
  · intro act prog
    rfl
  · intro act argv
    rfl

/-- C8 witness: the amended exit-code behaviour at concrete verbs — a
failing `clean` exits 1, a succeeding `generate` exits 0, and the unknown
verb `"bogus"` exits 1. -/
theorem reportMain_exit_codes_witness :
    reportMain true ["generate_report.py", "clean"] (fun _ => false) = 1
    ∧ reportMain true ["generate_report.py", "generate"] (fun _ => true) = 0
    ∧ reportMain true ["generate_report.py", "bogus"] (fun _ => true) = 1 := by
  refine ⟨?_, ?_, ?_⟩
  · have h := reportMain_exit_codes.1 (fun _ => false) "generate_report.py" [] "clean"
      (by decide)
    simpa using h
  · have h := reportMain_exit_codes.1 (fun _ => true) "generate_report.py" [] "generate"
      (by decide)
    simpa using h
  · exact reportMain_exit_codes.2.2.1 (fun _ => true) "generate_report.py" [] "bogus"
      (by decide)

/-! ## `DataHelper.flatten_dict` / `unflatten_dict`

The nested dictionaries these functions operate on: keys are Python
strings (`List Char`), values are either nested dicts or arbitrary other
Python objects (`prim`, identified by a tag). -/

abbrev PStr := List Char

inductive PVal : Type where
  | prim : Nat → PVal
  | dict : List (PStr × PVal) → PVal

instance : Inhabited PVal := ⟨PVal.prim 0⟩

abbrev PDict := List (PStr × PVal)

/-- `new_key = f"{parent_key}{separator}{key}" if parent_key else key`
(the empty parent key is falsy). -/
def joinKey (sep parent k : PStr) : PStr :=
  if parent = [] then k else parent ++ sep ++ k

mutual
/-- One entry's contribution to `flatten_dict`'s `items`: a dict value
recurses under the extended key, any other value yields one pair. -/
def flattenVal (sep parent k : PStr) : PVal → PDict
  | PVal.prim t => [(joinKey sep parent k, PVal.prim t)]
  | PVal.dict l => flattenEntries sep (joinKey sep parent k) l

/-- The `items` list accumulated by `DataHelper.flatten_dict(data,
parent_key, separator)` over the entries of `data`, in order. -/
def flattenEntries (sep parent : PStr) : PDict → PDict
  | [] => []
  | (k, v) :: rest => flattenVal sep parent k v ++ flattenEntries sep parent rest
end

/-- `DataHelper.flatten_dict(data, separator=sep)`: `dict(items)`. -/
def flatten_dict (sep : PStr) (d : PDict) : PDict :=
  pyDictOf (flattenEntries sep [] d)

/-- The per-entry body of `unflatten_dict`: walk `parts[:-1]` from the
result dict, inserting `{}` for missing keys, then assign the value at
`parts[-1]`.  `none` models the `TypeError` raised when a traversed value
is not a dict (and the unreachable empty-parts `IndexError`). -/
def setPath : List PStr → PVal → PDict → Option PDict
  | [], _, _ => none
  | [p], v, d => some (dictSet d p v)
  | p :: q :: rest, v, d =>
      match dictGet d p with
      | none =>
          (setPath (q :: rest) v []).map (fun inner => dictSet d p (PVal.dict inner))
      | some (PVal.dict l) =>
          (setPath (q :: rest) v l).map (fun inner => dictSet d p (PVal.dict inner))
      | some (PVal.prim _) => none

/-- One iteration of `unflatten_dict`'s loop: split the key (Python raises
`ValueError` on an empty separator) and insert the value along the path. -/
def unflattenStep (sep : PStr) (acc : PDict) (kv : PStr × PVal) : Option PDict :=
  if sep = [] then none else setPath (pySplit sep kv.1) kv.2 acc

/-- `DataHelper.unflatten_dict(data, separator=sep)`: fold the entries into
an initially empty result.  `none` models a raised exception (`ValueError`
from `split` or `TypeError` from the walk), which aborts the whole call. -/
def unflatten_dict (sep : PStr) (d : PDict) : Option PDict :=
  d.foldlM (unflattenStep sep) []

mutual
/-- Hypotheses of the amended round-trip claim, value side: every nested
dict is non-empty and satisfies `goodEntries`. -/
def goodVal (c : Char) : PVal → Bool
  | PVal.prim _ => true
  | PVal.dict l => !l.isEmpty && goodEntries c l

/-- Hypotheses of the amended round-trip claim, dict side: keys are
non-empty, do not contain the separator character, and are distinct. -/
def goodEntries (c : Char) : PDict → Bool
  | [] => true
  | (k, v) :: rest =>
      decide (k ≠ []) && ! k.contains c && ! (rest.map Prod.fst).contains k
        && goodVal c v && goodEntries c rest
end

mutual
/-- Hypotheses of the round-trip claim as stated, value side. -/
def claimVal (sep : PStr) : PVal → Bool
  | PVal.prim _ => true
  | PVal.dict l => !l.isEmpty && claimEntries sep l

/-- Hypotheses of the round-trip claim as stated, dict side: keys do not
contain the separator as a substring (and are distinct, dicts being maps);
nested dicts are non-empty. -/
def claimEntries (sep : PStr) : PDict → Bool
  | [] => true
  | (k, v) :: rest =>
      (breakOn sep k).isNone && ! (rest.map Prod.fst).contains k
        && claimVal sep v && claimEntries sep rest
end

/-- `{"": {"a": 0}}` — all keys are free of the separator `"."` and the one
nested dict is non-empty, yet the round trip does not restore it. -/
def exToyDict : PDict := [([], PVal.dict [(['a'], PVal.prim 0)])]

/-- C10 counterexample: the claim as stated fails at `{"": {"a": 0}}` with
separator `"."`: the empty top-level key is falsy, so `flatten_dict`
treats the nested level as the root and produces `{"a": 0}`, which
unflattens to `{"a": 0}`, not the original. -/
theorem flatten_unflatten_counterexample :
    claimEntries ['.'] exToyDict = true
    ∧ unflatten_dict ['.'] (flatten_dict ['.'] exToyDict) ≠ some exToyDict := by
  constructor
  · simp [exToyDict, claimEntries, claimVal, breakOn]
  · intro h
    have h2 : unflatten_dict ['.'] (flatten_dict ['.'] exToyDict)
        = some [(['a'], PVal.prim 0)] := by
      simp [exToyDict, flatten_dict, flattenEntries, flattenVal, joinKey, pyDictOf,
        dictSet, unflatten_dict, unflattenStep, pySplit, pySplitFuel, breakOn,
        setPath, dictGet]
    rw [h2] at h
    simp [exToyDict] at h

/-! ### Split lemmas for a single-character separator -/

theorem breakOn_not_mem {c : Char} {k : PStr} (h : c ∉ k) : breakOn [c] k = none := by
  induction k with
  | nil => simp [breakOn]
  | cons a rest ih =>
      simp only [List.mem_cons, not_or] at h
      have hca : (c == a) = false := by
        simp only [beq_eq_false_iff_ne]
        exact h.1
      simp [breakOn, List.isPrefixOf, hca, ih h.2]

theorem breakOn_append_sep {c : Char} {k : PStr} (t : PStr) (h : c ∉ k) :
    breakOn [c] (k ++ c :: t) = some (k, t) := by
  induction k with
  | nil => simp [breakOn, List.isPrefixOf]
  | cons a rest ih =>
      simp only [List.mem_cons, not_or] at h
      have hca : (c == a) = false := by
        simp only [beq_eq_false_iff_ne]
        exact h.1
      simp [breakOn, List.isPrefixOf, hca, ih h.2]

theorem breakOn_some_parts {sep : PStr} :
    ∀ {s a b : PStr}, breakOn sep s = some (a, b) → s = a ++ sep ++ b := by
  intro s
  induction s with
  | nil =>
      intro a b h
      by_cases hsep : sep = []
      · subst hsep
        simp [breakOn] at h
        obtain ⟨ha, hb⟩ := h
        subst ha
        subst hb
        rfl
      · simp [breakOn, hsep] at h
  | cons x rest ih =>
      intro a b h
      by_cases hpre : sep.isPrefixOf (x :: rest)
      · simp [breakOn, hpre] at h
        obtain ⟨ha, hb⟩ := h
        subst ha
        subst hb
        have hp : sep <+: (x :: rest) := List.isPrefixOf_iff_prefix.mp hpre
        obtain ⟨u, hu⟩ := hp
        have hdrop : (x :: rest).drop sep.length = u := by
          rw [← hu, List.drop_left]
        rw [hdrop]
        simp only [List.nil_append]
        exact hu.symm
      · simp [breakOn, hpre] at h
        obtain ⟨a', hb, ha⟩ := h
        have := ih hb
        rw [← ha, this]
        simp

theorem pySplitFuel_ne_nil (fuel : Nat) (sep s : PStr) : pySplitFuel fuel sep s ≠ [] := by
  cases fuel with
  | zero => simp [pySplitFuel]
  | succ n =>
      cases h : breakOn sep s with
      | none => simp [pySplitFuel, h]
      | some pr => simp [pySplitFuel, h]

theorem pySplitFuel_congr {sep : PStr} (hsep : sep ≠ []) :
    ∀ (f1 : Nat) (f2 : Nat) (s : PStr), s.length < f1 → s.length < f2 →
      pySplitFuel f1 sep s = pySplitFuel f2 sep s := by
  intro f1
  induction f1 with
  | zero => intro f2 s h1; omega
  | succ n ih =>
      intro f2 s h1 h2
      cases f2 with
      | zero => omega
      | succ m =>
          cases hb : breakOn sep s with
          | none => simp [pySplitFuel, hb]
          | some pr =>
              obtain ⟨a, b⟩ := pr
              have hparts := breakOn_some_parts hb
              have hsl : 1 ≤ sep.length := by
                cases sep with
                | nil => exact absurd rfl hsep
                | cons _ _ => simp
              have hblen : b.length < s.length := by
                subst hparts
                simp
                omega
              simp only [pySplitFuel, hb]
              rw [ih m b (by omega) (by omega)]

theorem pySplit_cons {c : Char} {k : PStr} (t : PStr) (h : c ∉ k) :
    pySplit [c] (k ++ c :: t) = k :: pySplit [c] t := by
  have hb := breakOn_append_sep t h
  show pySplitFuel ((k ++ c :: t).length + 1) [c] (k ++ c :: t) = k :: pySplit [c] t
  simp only [pySplitFuel, hb]
  refine congrArg (List.cons k) ?_
  simp only [pySplit]
  apply pySplitFuel_congr
  · simp
  · simp
    omega
  · omega

theorem pySplit_single {c : Char} {k : PStr} (h : c ∉ k) : pySplit [c] k = [k] := by
  simp [pySplit, pySplitFuel, breakOn_not_mem h]

theorem pySplit_ne_nil (sep s : PStr) : pySplit sep s ≠ [] :=
  pySplitFuel_ne_nil _ sep s

/-! ### A size measure for the nested dict type -/

mutual
def valSize : PVal → Nat
  | PVal.prim _ => 1
  | PVal.dict l => 1 + entsSize l

def entsSize : PDict → Nat
  | [] => 0
  | (_, v) :: rest => 1 + valSize v + entsSize rest
end

theorem valSize_pos (v : PVal) : 1 ≤ valSize v := by
  cases v with
  | prim t => simp [valSize]
  | dict l => simp [valSize]

/-- Destructured form of `goodEntries` on a cons cell. -/
theorem goodEntries_cons {c : Char} {k : PStr} {v : PVal} {rest : PDict}
    (h : goodEntries c ((k, v) :: rest) = true) :
    k ≠ [] ∧ c ∉ k ∧ k ∉ rest.map Prod.fst ∧ goodVal c v = true
      ∧ goodEntries c rest = true := by
  simp only [goodEntries, Bool.and_eq_true, decide_eq_true_eq, Bool.not_eq_true'] at h
  obtain ⟨⟨⟨⟨h1, h2⟩, h3⟩, h4⟩, h5⟩ := h
  refine ⟨h1, ?_, ?_, h4, h5⟩
  · simpa [List.contains] using h2
  · simpa [List.contains] using h3

theorem goodVal_dict {c : Char} {l : PDict} (h : goodVal c (PVal.dict l) = true) :
    l ≠ [] ∧ goodEntries c l = true := by
  simp only [goodVal, Bool.and_eq_true, Bool.not_eq_true'] at h
  refine ⟨?_, h.2⟩
  simpa using h.1

theorem goodEntries_key_facts {c : Char} :
    ∀ {l : PDict}, goodEntries c l = true →
      ∀ k0 ∈ l.map Prod.fst, k0 ≠ [] ∧ c ∉ k0 := by
  intro l
  induction l with
  | nil => intro _ k0 hk0; simp at hk0
  | cons hd tl ih =>
      obtain ⟨k, v⟩ := hd
      intro h k0 hk0
      obtain ⟨h1, h2, _, _, h5⟩ := goodEntries_cons h
      simp only [List.map_cons, List.mem_cons] at hk0
      rcases hk0 with rfl | hk0
      · exact ⟨h1, h2⟩
      · exact ih h5 k0 hk0

/-! ### Flattened keys: shifting under a parent prefix, and their shape -/

theorem flattenEntries_shift (c : Char) :
    ∀ (n : Nat) (l : PDict), entsSize l ≤ n → goodEntries c l = true →
      ∀ parent : PStr, parent ≠ [] →
      flattenEntries [c] parent l
        = (flattenEntries [c] [] l).map (fun kv => (parent ++ c :: kv.1, kv.2)) := by
  intro n
  induction n with
  | zero =>
      intro l hsize hg parent hp
      cases l with
      | nil => simp [flattenEntries]
      | cons hd tl =>
          obtain ⟨k, v⟩ := hd
          have := valSize_pos v
          simp only [entsSize] at hsize
          omega
  | succ m ih =>
      intro l hsize hg parent hp
      cases l with
      | nil => simp [flattenEntries]
      | cons hd tl =>
          obtain ⟨k, v⟩ := hd
          obtain ⟨hk, hkc, hnd, hv, htl⟩ := goodEntries_cons hg
          have hvpos := valSize_pos v
          simp only [entsSize] at hsize
          have htlsize : entsSize tl ≤ m := by omega
          simp only [flattenEntries, List.map_append]
          rw [ih tl htlsize htl parent hp]
          congr 1
          cases v with
          | prim t => simp [flattenVal, joinKey, hp]
          | dict m' =>
              obtain ⟨hm'ne, hgm'⟩ := goodVal_dict hv
              simp only [valSize] at hsize
              have hm'size : entsSize m' ≤ m := by omega
              simp only [flattenVal]
              rw [show joinKey [c] parent k = parent ++ c :: k from by
                    simp [joinKey, hp],
                  show joinKey [c] [] k = k from by simp [joinKey]]
              rw [ih m' hm'size hgm' (parent ++ c :: k) (by simp),
                  ih m' hm'size hgm' k hk]
              rw [List.map_map]
              congr 1
              funext kv
              simp

theorem flattenEntries_ne_nil (c : Char) :
    ∀ (n : Nat) (l : PDict), entsSize l ≤ n → goodEntries c l = true → l ≠ [] →
      flattenEntries [c] [] l ≠ [] := by
  intro n
  induction n with
  | zero =>
      intro l hsize _ hne
      cases l with
      | nil => exact absurd rfl hne
      | cons hd tl =>
          obtain ⟨k, v⟩ := hd
          have := valSize_pos v
          simp only [entsSize] at hsize
          omega
  | succ m ih =>
      intro l hsize hg hne
      cases l with
      | nil => exact absurd rfl hne
      | cons hd tl =>
          obtain ⟨k, v⟩ := hd
          obtain ⟨hk, hkc, hnd, hv, htl⟩ := goodEntries_cons hg
          simp only [entsSize] at hsize
          have hvpos := valSize_pos v
          simp only [flattenEntries]
          cases v with
          | prim t => simp [flattenVal]
          | dict m' =>
              obtain ⟨hm'ne, hgm'⟩ := goodVal_dict hv
              simp only [valSize] at hsize
              have h1 : flattenEntries [c] [] m' ≠ [] := ih m' (by omega) hgm' hm'ne
              simp only [flattenVal]
              intro hcontra
              rcases List.append_eq_nil.mp hcontra with ⟨h2, _⟩
              rw [show joinKey [c] [] k = k from by simp [joinKey]] at h2
              rw [flattenEntries_shift c (entsSize m') m' le_rfl hgm' k hk] at h2
              exact h1 (List.map_eq_nil_iff.mp h2)

/-- The shape of a suffix produced by flattening: empty for a leaf at the
top key itself, or a separator followed by the rest of the path. -/
def ChainSuffix (c : Char) (s : PStr) : Prop := s = [] ∨ ∃ t, s = c :: t

theorem flattenEntries_key_structure (c : Char) :
    ∀ (l : PDict), goodEntries c l = true →
      ∀ key ∈ (flattenEntries [c] [] l).map Prod.fst,
        ∃ k0 s, k0 ∈ l.map Prod.fst ∧ key = k0 ++ s ∧ ChainSuffix c s := by
  intro l
  induction l with
  | nil => intro _ key hkey; simp [flattenEntries] at hkey
  | cons hd tl ih =>
      obtain ⟨k, v⟩ := hd
      intro hg key hkey
      obtain ⟨hk, hkc, hnd, hv, htl⟩ := goodEntries_cons hg
      simp only [flattenEntries, List.map_append, List.mem_append] at hkey
      rcases hkey with hkey | hkey
      · cases v with
        | prim t =>
            simp [flattenVal, joinKey] at hkey
            exact ⟨k, [], by simp, by simp [hkey], Or.inl rfl⟩
        | dict m' =>
            obtain ⟨hm'ne, hgm'⟩ := goodVal_dict hv
            simp only [flattenVal] at hkey
            rw [show joinKey [c] [] k = k from by simp [joinKey],
              flattenEntries_shift c (entsSize m') m' le_rfl hgm' k hk] at hkey
            simp only [List.map_map] at hkey
            obtain ⟨kv, _, hkv⟩ := List.mem_map.mp hkey
            exact ⟨k, c :: kv.1, by simp, by rw [← hkv]; rfl, Or.inr ⟨kv.1, rfl⟩⟩
      · obtain ⟨k0, s, hk0, hks, hcs⟩ := ih htl key hkey
        exact ⟨k0, s, by simp only [List.map_cons, List.mem_cons]; exact Or.inr hk0,
          hks, hcs⟩

/-- Two chain keys with distinct separator-free heads are distinct. -/
theorem chainSuffixNeAux {c : Char} {k1 k2 s1 s2 : PStr}
    (hlen : k1.length ≤ k2.length) (hne : k1 ≠ k2) (h2 : c ∉ k2)
    (hs1 : ChainSuffix c s1) : k1 ++ s1 ≠ k2 ++ s2 := by
  intro heq
  have htake : k1 = k2.take k1.length := by
    have e1 : (k1 ++ s1).take k1.length = k1 := List.take_left k1 s1
    have e2 : (k2 ++ s2).take k1.length = k2.take k1.length := by
      rw [List.take_append_eq_append_take]
      have hz : k1.length - k2.length = 0 := by omega
      rw [hz]
      simp
    calc k1 = (k1 ++ s1).take k1.length := e1.symm
      _ = (k2 ++ s2).take k1.length := by rw [heq]
      _ = k2.take k1.length := e2
  rcases Nat.eq_or_lt_of_le hlen with heq2 | hlt
  · exact hne (htake.trans (by rw [heq2, List.take_length]))
  · have hk2 : k2 = k1 ++ k2.drop k1.length := by
      conv_lhs => rw [← List.take_append_drop k1.length k2]
      rw [← htake]
    have hm : k2.drop k1.length ≠ [] := by
      intro hnil
      have hl := List.length_drop k1.length k2
      rw [hnil] at hl
      simp at hl
      omega
    have hs1' : s1 = k2.drop k1.length ++ s2 := by
      have hx : k1 ++ s1 = k1 ++ (k2.drop k1.length ++ s2) := by
        rw [heq]
        conv_lhs => rw [hk2]
        rw [List.append_assoc]
      exact List.append_cancel_left hx
    rcases hs1 with rfl | ⟨t, rfl⟩
    · rcases List.append_eq_nil.mp hs1'.symm with ⟨hd, _⟩
      exact hm hd
    · cases hdrop : k2.drop k1.length with
      | nil => exact hm hdrop
      | cons m0 m' =>
          rw [hdrop] at hs1'
          have hm0 : m0 = c := by
            have hcons := hs1'
            simp only [List.cons_append, List.cons.injEq] at hcons
            exact hcons.1.symm
          have hmem : c ∈ k2.drop k1.length := by
            rw [hdrop, hm0]
            simp
          exact h2 (List.drop_subset _ _ hmem)

theorem chainSuffix_ne {c : Char} {k1 k2 s1 s2 : PStr}
    (hne : k1 ≠ k2) (h1 : c ∉ k1) (h2 : c ∉ k2)
    (hs1 : ChainSuffix c s1) (hs2 : ChainSuffix c s2) : k1 ++ s1 ≠ k2 ++ s2 := by
  rcases Nat.le_total k1.length k2.length with hle | hle
  · exact chainSuffixNeAux hle hne h2 hs1
  · exact fun h => (chainSuffixNeAux hle (Ne.symm hne) h1 hs2) h.symm

theorem flattenEntries_keys_nodup (c : Char) :
    ∀ (n : Nat) (l : PDict), entsSize l ≤ n → goodEntries c l = true →
      ((flattenEntries [c] [] l).map Prod.fst).Nodup := by
  intro n
  induction n with
  | zero =>
      intro l hsize _
      cases l with
      | nil => simp [flattenEntries]
      | cons hd tl =>
          obtain ⟨k, v⟩ := hd
          have := valSize_pos v
          simp only [entsSize] at hsize
          omega
  | succ m ih =>
      intro l hsize hg
      cases l with
      | nil => simp [flattenEntries]
      | cons hd tl =>
          obtain ⟨k, v⟩ := hd
          obtain ⟨hk, hkc, hnd, hv, htl⟩ := goodEntries_cons hg
          simp only [entsSize] at hsize
          have hvpos := valSize_pos v
          have htlsize : entsSize tl ≤ m := by omega
          simp only [flattenEntries, List.map_append]
          rw [List.nodup_append]
          refine ⟨?_, ih tl htlsize htl, ?_⟩
          · cases v with
            | prim t => simp [flattenVal]
            | dict m' =>
                obtain ⟨hm'ne, hgm'⟩ := goodVal_dict hv
                simp only [valSize] at hsize
                simp only [flattenVal]
                rw [show joinKey [c] [] k = k from by simp [joinKey],
                  flattenEntries_shift c (entsSize m') m' le_rfl hgm' k hk]
                rw [List.map_map]
                have hinner := ih m' (by omega) hgm'
                have hcomp : (Prod.fst ∘ fun kv : PStr × PVal => (k ++ c :: kv.1, kv.2))
                    = (fun x => k ++ c :: x) ∘ Prod.fst := rfl
                rw [hcomp, ← List.map_map]
                apply List.Nodup.map _ hinner
                intro x y hxy
                simpa using hxy
          · intro key hkeyA hkeyB
            obtain ⟨k0, s0, hk0, hks0, hcs0⟩ :=
              flattenEntries_key_structure c tl htl key hkeyB
            obtain ⟨hk0ne, hk0c⟩ := goodEntries_key_facts htl k0 hk0
            have hkne : k ≠ k0 := fun hh => hnd (hh ▸ hk0)
            have hA : ∃ sA, key = k ++ sA ∧ ChainSuffix c sA := by
              cases v with
              | prim t =>
                  simp [flattenVal, joinKey] at hkeyA
                  exact ⟨[], by simp [hkeyA], Or.inl rfl⟩
              | dict m' =>
                  obtain ⟨hm'ne, hgm'⟩ := goodVal_dict hv
                  simp only [flattenVal] at hkeyA
                  rw [show joinKey [c] [] k = k from by simp [joinKey],
                    flattenEntries_shift c (entsSize m') m' le_rfl hgm' k hk] at hkeyA
                  simp only [List.map_map] at hkeyA
                  obtain ⟨kv, _, hkv⟩ := List.mem_map.mp hkeyA
                  exact ⟨c :: kv.1, by rw [← hkv]; rfl, Or.inr ⟨kv.1, rfl⟩⟩
            obtain ⟨sA, hksA, hcsA⟩ := hA
            exact chainSuffix_ne hkne hkc hk0c hcsA hcs0 (by rw [← hksA, ← hks0])

/-! ### `dict(items)` is the identity on duplicate-free items -/

theorem foldl_dictSet_fresh {α β : Type} [DecidableEq α] :
    ∀ (items : List (α × β)) (acc : List (α × β)),
      (∀ k ∈ items.map Prod.fst, dictGet acc k = none) →
      (items.map Prod.fst).Nodup →
      items.foldl (fun d kv => dictSet d kv.1 kv.2) acc = acc ++ items := by
  intro items
  induction items with
  | nil => intro acc _ _; simp
  | cons hd tl ih =>
      obtain ⟨k, v⟩ := hd
      intro acc hfresh hnd
      simp only [List.map_cons, List.nodup_cons] at hnd
      have hkacc : dictGet acc k = none := hfresh k (by simp)
      simp only [List.foldl_cons]
      rw [dictGet_none_append _ _ _ hkacc,
        ih (acc ++ [(k, v)]) ?fresh hnd.2]
      · simp
      case fresh =>
        intro k' hk'
        have hne : k ≠ k' := fun hh => hnd.1 (hh ▸ hk')
        rw [dictGet_append, hfresh k' (by simp [hk'])]
        simp [dictGet, hne]

theorem pyDictOf_nodup {α β : Type} [DecidableEq α] (items : List (α × β))
    (h : (items.map Prod.fst).Nodup) : pyDictOf items = items := by
  have hd := foldl_dictSet_fresh items [] (fun k _ => rfl) h
  simpa [pyDictOf] using hd

/-! ### Unflattening one flattened subtree -/

/-- Processing the flattened entries of one subtree, all of whose keys are
prefixed by `k ++ sep`, builds exactly the nested dict at key `k`:
descending through `k` threads every update through `acc`'s entry for `k`
(created as `{}` on first touch, as in the Python loop). -/
theorem unflatten_block {c : Char} {k : PStr} (hk : c ∉ k) :
    ∀ (items : List (PStr × PVal)) (acc sub : PDict),
      items ≠ [] →
      ((dictGet acc k = none ∧ sub = []) ∨ dictGet acc k = some (PVal.dict sub)) →
      (items.map (fun kv => (k ++ c :: kv.1, kv.2))).foldlM (unflattenStep [c]) acc
        = (items.foldlM (unflattenStep [c]) sub).map
            (fun s => dictSet acc k (PVal.dict s)) := by
  intro items
  induction items with
  | nil => intro acc sub hne _; exact absurd rfl hne
  | cons hd tl ih =>
      obtain ⟨key, v⟩ := hd
      intro acc sub _ hacc
      cases hq : pySplit [c] key with
      | nil => exact absurd hq (pySplit_ne_nil [c] key)
      | cons q qs =>
          have hstep : unflattenStep [c] acc (k ++ c :: key, v)
              = (setPath (q :: qs) v sub).map
                  (fun inner => dictSet acc k (PVal.dict inner)) := by
            simp only [unflattenStep, if_neg (by simp : ¬ ([c] : PStr) = [])]
            rw [pySplit_cons key hk, hq]
            rcases hacc with ⟨hnone, rfl⟩ | hsome
            · simp [setPath, hnone]
            · simp [setPath, hsome]
          have hstepSub : unflattenStep [c] sub (key, v) = setPath (q :: qs) v sub := by
            simp only [unflattenStep, if_neg (by simp : ¬ ([c] : PStr) = [])]
            rw [hq]
          cases tl with
          | nil =>
              simp only [List.map_cons, List.map_nil, List.foldlM_cons, List.foldlM_nil]
              rw [hstep]
              cases hsp : setPath (q :: qs) v sub with
              | none => simp [hstepSub, hsp]
              | some sub' => simp [hstepSub, hsp]
          | cons t1 trest =>
              rw [show List.map (fun kv : PStr × PVal => (k ++ c :: kv.1, kv.2))
                    ((key, v) :: t1 :: trest)
                  = (k ++ c :: key, v)
                    :: List.map (fun kv : PStr × PVal => (k ++ c :: kv.1, kv.2))
                        (t1 :: trest) from rfl]
              rw [List.foldlM_cons, List.foldlM_cons]
              rw [hstep, hstepSub]
              cases hsp : setPath (q :: qs) v sub with
              | none => simp
              | some sub' =>
                  simp only [Option.map_some', Option.bind_eq_bind, Option.some_bind]
                  rw [ih (dictSet acc k (PVal.dict sub')) sub' (by simp)
                    (Or.inr (dictGet_dictSet_self acc k (PVal.dict sub')))]
                  have hfun : (fun s => dictSet (dictSet acc k (PVal.dict sub')) k
                        (PVal.dict s))
                      = (fun s => dictSet acc k (PVal.dict s)) :=
                    funext fun s => dictSet_dictSet_same acc k (PVal.dict sub')
                      (PVal.dict s)
                  rw [hfun]

/-! ### The round trip -/

theorem unflatten_flatten_aux (c : Char) :
    ∀ (n : Nat) (l : PDict), entsSize l ≤ n → goodEntries c l = true →
      ∀ acc : PDict, (∀ k ∈ l.map Prod.fst, dictGet acc k = none) →
      (flattenEntries [c] [] l).foldlM (unflattenStep [c]) acc = some (acc ++ l) := by
  intro n
  induction n with
  | zero =>
      intro l hsize hg acc hacc
      cases l with
      | nil => simp [flattenEntries]
      | cons hd tl =>
          obtain ⟨k, v⟩ := hd
          have := valSize_pos v
          simp only [entsSize] at hsize
          omega
  | succ m ih =>
      intro l hsize hg acc hacc
      cases l with
      | nil => simp [flattenEntries]
      | cons hd tl =>
          obtain ⟨k, v⟩ := hd
          obtain ⟨hk, hkc, hnd, hv, htl⟩ := goodEntries_cons hg
          simp only [entsSize] at hsize
          have hvpos := valSize_pos v
          have htlsize : entsSize tl ≤ m := by omega
          have hkacc : dictGet acc k = none := hacc k (by simp)
          have hfreshx : ∀ (v' : PVal), ∀ k' ∈ tl.map Prod.fst,
              dictGet (acc ++ [(k, v')]) k' = none := by
            intro v' k' hk'
            have hne : k ≠ k' := fun hh => hnd (hh ▸ hk')
            rw [dictGet_append, hacc k' (by simp [hk'])]
            simp [dictGet, hne]
          simp only [flattenEntries]
          rw [List.foldlM_append]
          cases v with
          | prim t =>
              have hA : (flattenVal [c] [] k (PVal.prim t)).foldlM
                  (unflattenStep [c]) acc = some (acc ++ [(k, PVal.prim t)]) := by
                simp only [flattenVal, List.foldlM_cons, List.foldlM_nil]
                simp only [unflattenStep, if_neg (by simp : ¬ ([c] : PStr) = [])]
                rw [show joinKey [c] [] k = k from by simp [joinKey]]
                rw [pySplit_single hkc]
                simp [setPath, dictGet_none_append _ _ _ hkacc]
              rw [hA]
              simp only [Option.bind_eq_bind, Option.some_bind]
              rw [ih tl htlsize htl (acc ++ [(k, PVal.prim t)])
                (hfreshx (PVal.prim t))]
              simp
          | dict m' =>
              obtain ⟨hm'ne, hgm'⟩ := goodVal_dict hv
              simp only [valSize] at hsize
              have hm'size : entsSize m' ≤ m := by omega
              have hA : (flattenVal [c] [] k (PVal.dict m')).foldlM
                  (unflattenStep [c]) acc = some (acc ++ [(k, PVal.dict m')]) := by
                simp only [flattenVal]
                rw [show joinKey [c] [] k = k from by simp [joinKey],
                  flattenEntries_shift c (entsSize m') m' le_rfl hgm' k hk]
                rw [unflatten_block hkc (flattenEntries [c] [] m') acc []
                  (flattenEntries_ne_nil c (entsSize m') m' le_rfl hgm' hm'ne)
                  (Or.inl ⟨hkacc, rfl⟩)]
                rw [ih m' hm'size hgm' [] (fun k' _ => rfl)]
                simp [dictGet_none_append _ _ _ hkacc]
              rw [hA]
              simp only [Option.bind_eq_bind, Option.some_bind]
              rw [ih tl htlsize htl (acc ++ [(k, PVal.dict m')])
                (hfreshx (PVal.dict m'))]
              simp

/-- C10 (amended): for every nested dictionary whose keys at all levels are
non-empty strings not containing the single-character separator `c`, and
whose dict-typed values are all non-empty, `unflatten_dict` applied to
`flatten_dict` (both with separator `c`) returns the original dictionary. -/
theorem flatten_unflatten_roundtrip (c : Char) (d : PDict)
    (h : goodEntries c d = true) :
    unflatten_dict [c] (flatten_dict [c] d) = some d := by
  have hnd := flattenEntries_keys_nodup c (entsSize d) d le_rfl h
  show (flatten_dict [c] d).foldlM (unflattenStep [c]) [] = some d
  rw [flatten_dict, pyDictOf_nodup _ hnd]
  have hmain := unflatten_flatten_aux c (entsSize d) d le_rfl h [] (fun k _ => rfl)
  simpa using hmain

/-- A two-level dictionary meeting the amended hypotheses. -/
def exGoodDict : PDict :=
  [(['a'], PVal.prim 0),
   (['b'], PVal.dict [(['x'], PVal.prim 1),
                      (['y'], PVal.dict [(['z'], PVal.prim 2)])])]

/-- C10 witness: the amended round trip at a concrete nested dictionary
with separator `'.'`. -/
theorem flatten_unflatten_roundtrip_witness :
    goodEntries '.' exGoodDict = true
    ∧ unflatten_dict ['.'] (flatten_dict ['.'] exGoodDict) = some exGoodDict := by
  have hg : goodEntries '.' exGoodDict = true := by
    simp [exGoodDict, goodEntries, goodVal, List.contains]
  exact ⟨hg, flatten_unflatten_roundtrip '.' exGoodDict hg⟩

end AUTest
